import Mathlib

/-!
Verification of the `AbstractTypeProcessor` engine (src/src/index.jsx):
a schema-driven, recursive data transformer.  JavaScript values are
modelled by the inductive `JSValue`; thrown `TypeError`s by `JSError`;
the processor instance (type map plus the two overridable hooks
`processPrimitiveValue` / `processRemoteValue`) by the structure
`Processor`.  Asynchronous methods that may throw are modelled as pure
functions into `Except JSError`.
-/

/-- A JavaScript value, as far as the engine observes it.
Property access on an array with a non-index string key is modelled as
`undefined` (the engine never reads index keys or `length` on items). -/
inductive JSValue where
  | undefined
  | null
  | bool (b : Bool)
  | num (n : Int)
  | str (s : String)
  | list (xs : List JSValue)
  | obj (fields : List (String × JSValue))
deriving Repr

/-- The errors the engine can throw: the five terminal `ERROR_MESSAGES`
kinds, the two aggregates (which carry their key→error maps, as the JS
code attaches `.fields` / `.indices` to the thrown `TypeError`), and
`hookError` for an error thrown by an overridden hook. -/
inductive JSError where
  | nonExistentType
  | nonExistentField
  | missingFieldsForType
  | invalidItem
  | invalidValueList
  | itemError (fields : List (String × JSError))
  | valueListError (indices : List (Nat × JSError))
  | hookError (message : String)
deriving Repr

/-- A field descriptor: `{ type, multiple?, features? }`. -/
structure FieldDescriptor where
  type : String
  multiple : Bool := false
  features : List (String × JSValue) := []

/-- A type definition: `{ primitive?, remote?, fields?, features? }`.
`fields = none` models an absent (non-`Object`) `fields` property. -/
structure TypeDefinition where
  primitive : Bool := false
  remote : Bool := false
  fields : Option (List (String × FieldDescriptor)) := none
  features : List (String × JSValue) := []

/-- A processor instance: the type map plus the two extension hooks,
defaulting to the identity implementations of the base class. -/
structure Processor where
  typeMap : List (String × TypeDefinition)
  processPrimitiveValue : JSValue → String → Except JSError JSValue :=
    fun value _ => .ok value
  processRemoteValue : JSValue → String → Except JSError JSValue :=
    fun value _ => .ok value

/-- First-match association-list lookup, modelling JS object property
access (`undefined` when absent). -/
def lookupField : List (String × JSValue) → String → JSValue
  | [], _ => .undefined
  | (k, v) :: rest, key => if k = key then v else lookupField rest key

/-- Association-list lookup into the type map (`typeMap[typeName]`),
`none` when the property is absent or not an `Object`. -/
def tmLookup : List (String × TypeDefinition) → String → Option TypeDefinition
  | [], _ => none
  | (k, td) :: rest, key => if k = key then some td else tmLookup rest key

/-- Association-list lookup into a `fields` map (`fields[fieldName]`). -/
def fdLookup : List (String × FieldDescriptor) → String → Option FieldDescriptor
  | [], _ => none
  | (k, fd) :: rest, key => if k = key then some fd else fdLookup rest key

/-- The static `AbstractTypeProcessor.valueExists`: false exactly for `undefined`
and `null`. -/
def valueExists : JSValue → Bool
  | .undefined => false
  | .null => false
  | _ => true

/-- The test `value instanceof Object`: true for plain objects and arrays. -/
def instanceofObject : JSValue → Bool
  | .obj _ => true
  | .list _ => true
  | _ => false

/-- The test `value instanceof Array`. -/
def instanceofArray : JSValue → Bool
  | .list _ => true
  | _ => false

/-- The properties of an item as read by `item[fieldName]`: the field
list of an object, empty for an array (string-key reads yield
`undefined`) and for non-objects (never read by the engine). -/
def propList : JSValue → List (String × JSValue)
  | .obj fields => fields
  | _ => []

/-- Method `getTypeDefinition(typeName)`: resolve the type or throw
`NON_EXISTENT_TYPE`. -/
def getTypeDefinition (p : Processor) (typeName : String) :
    Except JSError TypeDefinition :=
  match tmLookup p.typeMap typeName with
  | some td => .ok td
  | none => .error .nonExistentType

/-- Method `getFieldList(typeName)`: `Object.keys(fields)`, or throw
`MISSING_FIELDS_FOR_TYPE` when `fields` is absent. -/
def getFieldList (p : Processor) (typeName : String) :
    Except JSError (List String) :=
  match getTypeDefinition p typeName with
  | .error e => .error e
  | .ok td =>
    match td.fields with
    | some fs => .ok (fs.map Prod.fst)
    | none => .error .missingFieldsForType

/-- Method `getFieldDescriptor(typeName, fieldName)`: resolve the descriptor or
throw `NON_EXISTENT_FIELD` (also when `fields` itself is absent). -/
def getFieldDescriptor (p : Processor) (typeName fieldName : String) :
    Except JSError FieldDescriptor :=
  match getTypeDefinition p typeName with
  | .error e => .error e
  | .ok td =>
    match td.fields with
    | some fs =>
      match fdLookup fs fieldName with
      | some fd => .ok fd
      | none => .error .nonExistentField
    | none => .error .nonExistentField

/-- Method `getTypeFeature(typeName, featureName)`: the feature value, or
`undefined` when unset. -/
def getTypeFeature (p : Processor) (typeName featureName : String) :
    Except JSError JSValue :=
  match getTypeDefinition p typeName with
  | .error e => .error e
  | .ok td => .ok (lookupField td.features featureName)

/-- Method `getFieldFeature(typeName, fieldName, featureName)`. -/
def getFieldFeature (p : Processor) (typeName fieldName featureName : String) :
    Except JSError JSValue :=
  match getFieldDescriptor p typeName fieldName with
  | .error e => .error e
  | .ok fd => .ok (lookupField fd.features featureName)

theorem sizeOf_lookupField_le (fs : List (String × JSValue)) (key : String) :
    sizeOf (lookupField fs key) ≤ sizeOf fs := by
  induction fs with
  | nil => simp [lookupField]
  | cons kv rest ih =>
    obtain ⟨k, v⟩ := kv
    by_cases h : k = key
    · simp only [lookupField, h, if_pos rfl]
      simp
      omega
    · simp only [lookupField, if_neg h]
      simp
      omega

theorem one_le_sizeOf_list (xs : List JSValue) : 1 ≤ sizeOf xs := by
  cases xs <;> simp <;> omega

theorem sizeOf_propList_lt (v : JSValue) (h : instanceofObject v = true) :
    sizeOf (propList v) < sizeOf v := by
  cases v with
  | obj fields => simp [propList]
  | list xs => have := one_le_sizeOf_list xs; simp [propList]; omega
  | _ => simp_all [instanceofObject]

mutual

/-- Method `processValue(value, typeName)`: resolve the type definition, then
dispatch: primitive hook, else remote hook, else composite item
processing. -/
def processValue (p : Processor) (value : JSValue) (typeName : String) :
    Except JSError JSValue :=
  match getTypeDefinition p typeName with
  | .error e => .error e
  | .ok td =>
    if td.primitive then p.processPrimitiveValue value typeName
    else if td.remote then p.processRemoteValue value typeName
    else processItem p value typeName
termination_by (2 * sizeOf value, 1, 0)

/-- Method `processFieldValue(value, typeName, fieldName)`: resolve the field
descriptor, then process as a list when `multiple` is set, else as a
single value, at the field's declared type. -/
def processFieldValue (p : Processor) (value : JSValue)
    (typeName fieldName : String) : Except JSError JSValue :=
  match getFieldDescriptor p typeName fieldName with
  | .error e => .error e
  | .ok fd =>
    if fd.multiple then processValueList p value fd.type
    else processValue p value fd.type
termination_by (2 * sizeOf value, 2, 0)

/-- Method `processValueList(valueList, typeName)`: arrays are processed
element by element; on any recorded per-index error a
`VALUE_LIST_ERROR` aggregate is thrown; non-array absent values pass
through; other non-arrays throw `INVALID_VALUE_LIST`. -/
def processValueList (p : Processor) (valueList : JSValue)
    (typeName : String) : Except JSError JSValue :=
  match valueList with
  | .list xs =>
    match processElements p xs typeName 0 with
    | (newList, []) => .ok (.list newList)
    | (_, e :: rest) => .error (.valueListError (e :: rest))
  | v =>
    if valueExists v then .error .invalidValueList
    else .ok v
termination_by (2 * sizeOf valueList, 1, 0)

/-- The `for` loop of `processValueList`, from index `i`: returns the
built `newList` (successes only, in order) and the `errorIndices`
accumulator. -/
def processElements (p : Processor) (xs : List JSValue) (typeName : String)
    (i : Nat) : List JSValue × List (Nat × JSError) :=
  match xs with
  | [] => ([], [])
  | x :: rest =>
    let r := processValue p x typeName
    let tail := processElements p rest typeName (i + 1)
    match r with
    | .ok w => (w :: tail.1, tail.2)
    | .error e => (tail.1, (i, e) :: tail.2)
termination_by (2 * sizeOf xs, 0, 0)

/-- Method `processItem(item, typeName)`: objects (including arrays) are
processed field by field over the declared field list; on any recorded
per-field error an `ITEM_ERROR` aggregate is thrown; absent values pass
through; other non-objects throw `INVALID_ITEM`. -/
def processItem (p : Processor) (item : JSValue) (typeName : String) :
    Except JSError JSValue :=
  if h : instanceofObject item then
    have hlt : sizeOf (propList item) < sizeOf item := sizeOf_propList_lt item h
    match getFieldList p typeName with
    | .error e => .error e
    | .ok fieldList =>
      match processFields p (propList item) typeName fieldList with
      | (newItem, []) => .ok (.obj newItem)
      | (_, e :: rest) => .error (.itemError (e :: rest))
  else if valueExists item then .error .invalidItem
  else .ok item
termination_by (2 * sizeOf item, 0, 0)

/-- The `for` loop of `processItem` over the field list, reading each
field's value from the item's properties `props`: returns the built
`newItem` and the `errorFields` accumulator. -/
def processFields (p : Processor) (props : List (String × JSValue))
    (typeName : String) (fieldList : List String) :
    List (String × JSValue) × List (String × JSError) :=
  match fieldList with
  | [] => ([], [])
  | fieldName :: rest =>
    have hlk : sizeOf (lookupField props fieldName) ≤ sizeOf props :=
      sizeOf_lookupField_le props fieldName
    let r := processFieldValue p (lookupField props fieldName) typeName fieldName
    let tail := processFields p props typeName rest
    match r with
    | .ok w => ((fieldName, w) :: tail.1, tail.2)
    | .error e => (tail.1, (fieldName, e) :: tail.2)
termination_by (2 * sizeOf props + 1, 0, fieldList.length)

end

/-- Whether a processing result is a thrown error. -/
def isErr : Except JSError JSValue → Bool
  | .error _ => true
  | .ok _ => false

/-- The value of a successful processing result (`undefined` otherwise). -/
def okVal : Except JSError JSValue → JSValue
  | .ok w => w
  | .error _ => .undefined

/-- The declared field names whose processing fails, in declaration
order. -/
def failingFields (p : Processor) (typeName : String)
    (props : List (String × JSValue)) (fieldList : List String) :
    List String :=
  fieldList.filter fun f =>
    isErr (processFieldValue p (lookupField props f) typeName f)

/-- The indices of the list elements whose processing fails, in index
order. -/
def failingIndices (p : Processor) (typeName : String)
    (xs : List JSValue) : List Nat :=
  xs.enum.filterMap fun ix =>
    match processValue p ix.2 typeName with
    | .error _ => some ix.1
    | .ok _ => none

theorem processFields_eq (p : Processor) (props : List (String × JSValue))
    (typeName : String) (fieldList : List String) :
    processFields p props typeName fieldList =
      (fieldList.filterMap fun f =>
        match processFieldValue p (lookupField props f) typeName f with
        | .ok w => some (f, w)
        | .error _ => none,
       fieldList.filterMap fun f =>
        match processFieldValue p (lookupField props f) typeName f with
        | .error e => some (f, e)
        | .ok _ => none) := by
  induction fieldList with
  | nil => simp [processFields]
  | cons f rest ih =>
    rw [processFields]
    cases h : processFieldValue p (lookupField props f) typeName f <;>
      simp [ih, h]

theorem processElements_eq (p : Processor) (xs : List JSValue)
    (typeName : String) : ∀ i : Nat,
    processElements p xs typeName i =
      (xs.filterMap fun x =>
        match processValue p x typeName with
        | .ok w => some w
        | .error _ => none,
       (List.enumFrom i xs).filterMap fun ix =>
        match processValue p ix.2 typeName with
        | .error e => some (ix.1, e)
        | .ok _ => none) := by
  induction xs with
  | nil => intro i; simp [processElements]
  | cons x rest ih =>
    intro i
    rw [processElements]
    cases h : processValue p x typeName <;>
      simp [ih, h, List.enumFrom]

theorem processItem_obj (p : Processor) (ifs : List (String × JSValue))
    (typeName : String) :
    processItem p (.obj ifs) typeName =
      match getFieldList p typeName with
      | .error e => .error e
      | .ok fieldList =>
        match processFields p ifs typeName fieldList with
        | (newItem, []) => .ok (.obj newItem)
        | (_, e :: rest) => .error (.itemError (e :: rest)) := by
  rw [processItem]
  simp [instanceofObject, propList]

theorem processItem_notObj (p : Processor) (v : JSValue) (typeName : String)
    (hv : instanceofObject v = false) :
    processItem p v typeName =
      if valueExists v then .error .invalidItem else .ok v := by
  rw [processItem]
  simp [hv]

theorem processValueList_list (p : Processor) (xs : List JSValue)
    (typeName : String) :
    processValueList p (.list xs) typeName =
      match processElements p xs typeName 0 with
      | (newList, []) => .ok (.list newList)
      | (_, e :: rest) => .error (.valueListError (e :: rest)) := by
  rw [processValueList]

theorem processValueList_notList (p : Processor) (v : JSValue)
    (typeName : String) (hv : instanceofArray v = false) :
    processValueList p v typeName =
      if valueExists v then .error .invalidValueList else .ok v := by
  cases v
  case list => simp [instanceofArray] at hv
  all_goals rw [processValueList] <;> simp

theorem processFields_snd_map_fst (p : Processor)
    (props : List (String × JSValue)) (typeName : String)
    (fieldList : List String) :
    ((processFields p props typeName fieldList).2).map Prod.fst =
      failingFields p typeName props fieldList := by
  rw [processFields_eq, failingFields]
  induction fieldList with
  | nil => simp
  | cons f rest ih =>
    cases h : processFieldValue p (lookupField props f) typeName f <;>
      simp [h, ih, isErr]

theorem processFields_snd_nil_iff (p : Processor)
    (props : List (String × JSValue)) (typeName : String)
    (fieldList : List String) :
    (processFields p props typeName fieldList).2 = [] ↔
      failingFields p typeName props fieldList = [] := by
  rw [← processFields_snd_map_fst]
  simp

theorem processElements_snd_map_fst (p : Processor) (xs : List JSValue)
    (typeName : String) :
    ((processElements p xs typeName 0).2).map Prod.fst =
      failingIndices p typeName xs := by
  rw [processElements_eq, failingIndices]
  rw [List.map_filterMap]
  congr 1
  funext ix
  cases processValue p ix.2 typeName <;> simp

theorem processElements_snd_nil_iff (p : Processor) (xs : List JSValue)
    (typeName : String) :
    (processElements p xs typeName 0).2 = [] ↔
      failingIndices p typeName xs = [] := by
  rw [← processElements_snd_map_fst]
  simp

theorem processItem_obj_ok (p : Processor) (ifs : List (String × JSValue))
    (typeName : String) (fl : List String)
    (hfl : getFieldList p typeName = .ok fl)
    (h0 : (processFields p ifs typeName fl).2 = []) :
    processItem p (.obj ifs) typeName =
      .ok (.obj (processFields p ifs typeName fl).1) := by
  rw [processItem_obj, hfl]
  rcases hpf : processFields p ifs typeName fl with ⟨ni, errs⟩
  rw [hpf] at h0
  simp only at h0
  subst h0
  simp [hpf]

theorem processItem_obj_err (p : Processor) (ifs : List (String × JSValue))
    (typeName : String) (fl : List String)
    (hfl : getFieldList p typeName = .ok fl)
    (hne : (processFields p ifs typeName fl).2 ≠ []) :
    processItem p (.obj ifs) typeName =
      .error (.itemError (processFields p ifs typeName fl).2) := by
  rw [processItem_obj, hfl]
  rcases hpf : processFields p ifs typeName fl with ⟨ni, errs⟩
  rw [hpf] at hne
  simp only at hne
  cases errs with
  | nil => exact absurd rfl hne
  | cons e rest => simp [hpf]

theorem processValueList_list_ok (p : Processor) (xs : List JSValue)
    (typeName : String) (h0 : (processElements p xs typeName 0).2 = []) :
    processValueList p (.list xs) typeName =
      .ok (.list (processElements p xs typeName 0).1) := by
  rw [processValueList_list]
  rcases hpe : processElements p xs typeName 0 with ⟨nl, errs⟩
  rw [hpe] at h0
  simp only at h0
  subst h0
  simp [hpe]

theorem processValueList_list_err (p : Processor) (xs : List JSValue)
    (typeName : String) (hne : (processElements p xs typeName 0).2 ≠ []) :
    processValueList p (.list xs) typeName =
      .error (.valueListError (processElements p xs typeName 0).2) := by
  rw [processValueList_list]
  rcases hpe : processElements p xs typeName 0 with ⟨nl, errs⟩
  rw [hpe] at hne
  simp only at hne
  cases errs with
  | nil => exact absurd rfl hne
  | cons e rest => simp [hpe]

theorem failingFields_nil_iff (p : Processor) (typeName : String)
    (props : List (String × JSValue)) (fl : List String) :
    failingFields p typeName props fl = [] ↔
      ∀ f ∈ fl, isErr (processFieldValue p (lookupField props f) typeName f)
        = false := by
  rw [failingFields]
  induction fl with
  | nil => simp
  | cons f rest ih =>
    cases h : processFieldValue p (lookupField props f) typeName f <;>
      simp [h, isErr, ih]

theorem processFields_fst_of_ok (p : Processor)
    (props : List (String × JSValue)) (typeName : String) (fl : List String)
    (h : ∀ f ∈ fl, isErr (processFieldValue p (lookupField props f) typeName f)
      = false) :
    (processFields p props typeName fl).1 =
      fl.map fun f =>
        (f, okVal (processFieldValue p (lookupField props f) typeName f)) := by
  induction fl with
  | nil => rw [processFields]; simp
  | cons f rest ih =>
    have hf := h f (by simp)
    rw [processFields]
    cases hpf : processFieldValue p (lookupField props f) typeName f with
    | error e => rw [hpf] at hf; simp [isErr] at hf
    | ok w =>
      have htail := ih (fun g hg => h g (by simp [hg]))
      simp [hpf, htail, okVal]

theorem failingIndices_nil_iff (p : Processor) (typeName : String)
    (xs : List JSValue) :
    failingIndices p typeName xs = [] ↔
      ∀ x ∈ xs, isErr (processValue p x typeName) = false := by
  rw [failingIndices]
  suffices h : ∀ i : Nat,
      ((List.enumFrom i xs).filterMap fun ix =>
        match processValue p ix.2 typeName with
        | .error _ => some ix.1
        | .ok _ => none) = [] ↔
      ∀ x ∈ xs, isErr (processValue p x typeName) = false from h 0
  intro i
  induction xs generalizing i with
  | nil => simp
  | cons x rest ih =>
    cases h : processValue p x typeName with
    | error e => simp [List.enumFrom, h, isErr]
    | ok w => simp [List.enumFrom, h, isErr, ih]

theorem processElements_fst_of_ok (p : Processor) (xs : List JSValue)
    (typeName : String)
    (h : ∀ x ∈ xs, isErr (processValue p x typeName) = false) :
    (processElements p xs typeName 0).1 =
      xs.map fun x => okVal (processValue p x typeName) := by
  have key : ∀ i : Nat, (processElements p xs typeName i).1 =
      xs.map fun x => okVal (processValue p x typeName) := by
    intro i
    induction xs generalizing i with
    | nil => rw [processElements]; simp
    | cons x rest ih =>
      have hx := h x (by simp)
      rw [processElements]
      cases hpx : processValue p x typeName with
      | error e => rw [hpx] at hx; simp [isErr] at hx
      | ok w =>
        have htail := ih (fun y hy => h y (by simp [hy])) (i + 1)
        simp [hpx, htail, okVal]
  exact key 0

/-- C1: for every composite type with a declared fields map and every
record-shaped input item, if exactly the declared fields `F` fail their
processing, `processItem` throws an `ItemError` whose fieldName→error
map has key list exactly `F` (in declaration order); when `F` is empty,
`processItem` throws nothing and returns a record in which every
declared field is present with its transformed value. -/
theorem processItem_field_failure_aggregation
    (p : Processor) (typeName : String) (td : TypeDefinition)
    (fs : List (String × FieldDescriptor)) (ifs : List (String × JSValue))
    (h1 : tmLookup p.typeMap typeName = some td)
    (h2 : td.fields = some fs) :
    (failingFields p typeName ifs (fs.map Prod.fst) = [] →
      processItem p (.obj ifs) typeName =
        .ok (.obj ((fs.map Prod.fst).map fun f =>
          (f, okVal (processFieldValue p (lookupField ifs f) typeName f))))) ∧
    (failingFields p typeName ifs (fs.map Prod.fst) ≠ [] →
      ∃ m, processItem p (.obj ifs) typeName = .error (.itemError m) ∧
        m.map Prod.fst = failingFields p typeName ifs (fs.map Prod.fst)) := by
  have hfl : getFieldList p typeName = .ok (fs.map Prod.fst) := by
    simp [getFieldList, getTypeDefinition, h1, h2]
  constructor
  · intro h0
    have hsnd :=
      (processFields_snd_nil_iff p ifs typeName (fs.map Prod.fst)).mpr h0
    rw [processItem_obj_ok p ifs typeName (fs.map Prod.fst) hfl hsnd]
    rw [processFields_fst_of_ok p ifs typeName (fs.map Prod.fst)
      ((failingFields_nil_iff p typeName ifs (fs.map Prod.fst)).mp h0)]
  · intro hne
    have hsnd : (processFields p ifs typeName (fs.map Prod.fst)).2 ≠ [] := by
      intro hx
      exact hne ((processFields_snd_nil_iff p ifs typeName (fs.map Prod.fst)).mp hx)
    exact ⟨(processFields p ifs typeName (fs.map Prod.fst)).2,
      processItem_obj_err p ifs typeName (fs.map Prod.fst) hfl hsnd,
      processFields_snd_map_fst p ifs typeName (fs.map Prod.fst)⟩

/-- C2: for every list input, if exactly the elements at the indices in
`failingIndices` fail their per-element processing, `processValueList`
throws a `ValueListError` whose index→error map has key list exactly
those indices; when none fails it throws nothing and returns the list
of processed elements. -/
theorem processValueList_index_failure_aggregation
    (p : Processor) (typeName : String) (xs : List JSValue) :
    (failingIndices p typeName xs = [] →
      processValueList p (.list xs) typeName =
        .ok (.list (xs.map fun x => okVal (processValue p x typeName)))) ∧
    (failingIndices p typeName xs ≠ [] →
      ∃ m, processValueList p (.list xs) typeName =
        .error (.valueListError m) ∧
        m.map Prod.fst = failingIndices p typeName xs) := by
  constructor
  · intro h0
    have hsnd := (processElements_snd_nil_iff p xs typeName).mpr h0
    rw [processValueList_list_ok p xs typeName hsnd]
    rw [processElements_fst_of_ok p xs typeName
      ((failingIndices_nil_iff p typeName xs).mp h0)]
  · intro hne
    have hsnd : (processElements p xs typeName 0).2 ≠ [] := by
      intro hx
      exact hne ((processElements_snd_nil_iff p xs typeName).mp hx)
    exact ⟨(processElements p xs typeName 0).2,
      processValueList_list_err p xs typeName hsnd,
      processElements_snd_map_fst p xs typeName⟩

/-- The `String` primitive type of the test schema. -/
def tdString : TypeDefinition := { primitive := true }

/-- The `Contact` composite type: one declared field `firstName` of
type `String`. -/
def tdContact : TypeDefinition :=
  { fields := some [("firstName", { type := "String" })] }

/-- The scenario type map
`{ String: {primitive:true}, Contact: {fields:{firstName:{type:'String'}}} }`. -/
def tmContact : List (String × TypeDefinition) :=
  [("String", tdString), ("Contact", tdContact)]

/-- A processor over the scenario type map with the default identity
hooks. -/
def contactP : Processor := { typeMap := tmContact }

/-- A two-field composite type used to exercise partial failure. -/
def tdPair : TypeDefinition :=
  { fields := some [("a", { type := "String" }), ("b", { type := "String" })] }

/-- A processor whose primitive hook throws on the string `"BAD"`. -/
def failBadP : Processor :=
  { typeMap := [("String", tdString), ("Pair", tdPair)],
    processPrimitiveValue := fun v _ =>
      match v with
      | .str "BAD" => .error (.hookError "bad primitive")
      | _ => .ok v }

theorem processItem_field_failure_aggregation_witness :
    failingFields failBadP "Pair"
      [("a", .str "x"), ("b", .str "BAD")] ["a", "b"] = ["b"] ∧
    (∃ m, processItem failBadP
        (.obj [("a", .str "x"), ("b", .str "BAD")]) "Pair" =
      .error (.itemError m) ∧ m.map Prod.fst = ["b"]) := by
  have hfail : failingFields failBadP "Pair"
      [("a", .str "x"), ("b", .str "BAD")] ["a", "b"] = ["b"] := by
    simp [failingFields, processFieldValue, getFieldDescriptor,
      getTypeDefinition, tmLookup, fdLookup, failBadP, tdPair, tdString,
      lookupField, processValue, isErr]
  refine ⟨hfail, ?_⟩
  have h := (processItem_field_failure_aggregation failBadP "Pair" tdPair
    [("a", { type := "String" }), ("b", { type := "String" })]
    [("a", .str "x"), ("b", .str "BAD")]
    (by simp [failBadP, tmLookup, tdPair]) rfl).2
  obtain ⟨m, hm, hkeys⟩ := h (by simp [hfail])
  exact ⟨m, hm, by rw [hkeys]; simp [hfail]⟩

theorem processValueList_index_failure_aggregation_witness :
    failingIndices failBadP "String" [.str "BAD", .str "ok"] = [0] ∧
    (∃ m, processValueList failBadP
        (.list [.str "BAD", .str "ok"]) "String" =
      .error (.valueListError m) ∧ m.map Prod.fst = [0]) := by
  have hfail : failingIndices failBadP "String" [.str "BAD", .str "ok"]
      = [0] := by
    simp [failingIndices, processValue, getTypeDefinition, tmLookup,
      failBadP, tdString, List.enum, List.enumFrom]
  refine ⟨hfail, ?_⟩
  have h := (processValueList_index_failure_aggregation failBadP "String"
    [.str "BAD", .str "ok"]).2
  obtain ⟨m, hm, hkeys⟩ := h (by simp [hfail])
  exact ⟨m, hm, by rw [hkeys, hfail]⟩

/-- C4: `processValue` dispatches by the closed three-way
classification: primitive flag set → primitive hook; else remote flag
set → remote hook; else composite item processing.  In particular when
both flags are set the primitive hook (and not the remote hook) is
invoked. -/
theorem processValue_dispatch (p : Processor) (v : JSValue)
    (typeName : String) (td : TypeDefinition)
    (h : tmLookup p.typeMap typeName = some td) :
    (processValue p v typeName =
      if td.primitive then p.processPrimitiveValue v typeName
      else if td.remote then p.processRemoteValue v typeName
      else processItem p v typeName) ∧
    (td.primitive = true →
      processValue p v typeName = p.processPrimitiveValue v typeName) := by
  have hd : getTypeDefinition p typeName = .ok td := by
    simp [getTypeDefinition, h]
  constructor
  · rw [processValue, hd]
  · intro hp
    rw [processValue, hd]
    simp [hp]

/-- The type definition that sets both classification flags. -/
def tdDual : TypeDefinition := { primitive := true, remote := true }

/-- A processor whose two hooks return distinguishable results, over a
type map containing the dual-flagged type. -/
def dualP : Processor :=
  { typeMap := [("Dual", tdDual)],
    processPrimitiveValue := fun _ _ => .ok (.str "primitive"),
    processRemoteValue := fun _ _ => .ok (.str "remote") }

theorem processValue_dispatch_witness :
    tmLookup dualP.typeMap "Dual" = some tdDual ∧
    processValue dualP (.num 0) "Dual" = .ok (.str "primitive") := by
  have h := processValue_dispatch dualP (.num 0) "Dual" tdDual
    (by simp [dualP, tmLookup])
  exact ⟨by simp [dualP, tmLookup], by rw [h.2 rfl]; simp [dualP]⟩

/-- C9: for every processor — whatever its type map, even one not
containing the type name, and whatever its hooks — processing the empty
list returns the empty list without error: the loop body never runs, so
no type lookup happens and no hook is invoked. -/
theorem processValueList_empty (p : Processor) (typeName : String) :
    processValueList p (.list []) typeName = .ok (.list []) := by
  rw [processValueList_list, processElements]

/-- C10: when a type's fields map is present but empty, `getFieldList`
returns the empty list (not `MissingFieldsForType`) and `processItem`
on any record-shaped input returns the empty record without error;
only an absent fields map triggers `MissingFieldsForType`. -/
theorem emptyFields_vs_missingFields (p : Processor) (typeName : String)
    (td : TypeDefinition) (h : tmLookup p.typeMap typeName = some td) :
    (td.fields = some [] →
      getFieldList p typeName = .ok [] ∧
      ∀ ifs, processItem p (.obj ifs) typeName = .ok (.obj [])) ∧
    (td.fields = none →
      getFieldList p typeName = .error .missingFieldsForType) := by
  have hd : getTypeDefinition p typeName = .ok td := by
    simp [getTypeDefinition, h]
  constructor
  · intro hf
    have hfl : getFieldList p typeName = .ok [] := by
      simp [getFieldList, hd, hf]
    refine ⟨hfl, fun ifs => ?_⟩
    have h0 : (processFields p ifs typeName []).2 = [] := by
      rw [processFields]
    rw [processItem_obj_ok p ifs typeName [] hfl h0, processFields]
  · intro hf
    simp [getFieldList, hd, hf]

/-- A composite type whose fields map is present but empty. -/
def tdEmptyFields : TypeDefinition := { fields := some [] }

/-- A type definition with no fields map at all. -/
def tdBare : TypeDefinition := {}

/-- A processor over both degenerate types. -/
def degenerateP : Processor :=
  { typeMap := [("Empty", tdEmptyFields), ("Bare", tdBare)] }

theorem emptyFields_vs_missingFields_witness :
    tmLookup degenerateP.typeMap "Empty" = some tdEmptyFields ∧
    getFieldList degenerateP "Empty" = .ok [] ∧
    processItem degenerateP (.obj [("x", .num 1)]) "Empty" = .ok (.obj []) ∧
    getFieldList degenerateP "Bare" = .error .missingFieldsForType := by
  have h := (emptyFields_vs_missingFields degenerateP "Empty" tdEmptyFields
    (by simp [degenerateP, tmLookup])).1 rfl
  have h2 := (emptyFields_vs_missingFields degenerateP "Bare" tdBare
    (by simp [degenerateP, tmLookup])).2 rfl
  exact ⟨by simp [degenerateP, tmLookup], h.1, h.2 [("x", .num 1)], h2⟩

/-- C6 (amended): in the list-processing loop each per-element failure
is recorded keyed by its original index and processing continues with
all subsequent elements (never short-circuiting), but no absence marker
is substituted for a failed slot: the built output list contains
exactly the successful results, in input order. -/
theorem processElements_failure_skips_slot (p : Processor)
    (xs : List JSValue) (typeName : String) :
    (processElements p xs typeName 0).1 =
      xs.filterMap (fun x =>
        match processValue p x typeName with
        | .ok w => some w
        | .error _ => none) ∧
    ((processElements p xs typeName 0).2).map Prod.fst =
      failingIndices p typeName xs :=
  ⟨by rw [processElements_eq], processElements_snd_map_fst p xs typeName⟩

/-- C6 counterexample: when index 0 of a two-element list fails, the
built output list is `[ok-result]` — length 1, no absence marker — so
the output list does not preserve the input list's length. -/
theorem processElements_no_absence_marker :
    (processElements failBadP [.str "BAD", .str "ok"] "String" 0).1 =
      [.str "ok"] ∧
    (processElements failBadP [.str "BAD", .str "ok"] "String" 0).1.length ≠
      ([JSValue.str "BAD", JSValue.str "ok"]).length := by
  have h : (processElements failBadP [.str "BAD", .str "ok"] "String" 0).1 =
      [.str "ok"] := by
    simp [processElements, processValue, getTypeDefinition, tmLookup,
      failBadP, tdString]
  exact ⟨h, by rw [h]; simp⟩

/-- C7 (amended): absent (`undefined`/`null`) inputs pass through both
`processValueList` and `processItem` unchanged for every processor (so
no hook can be invoked); a non-absent non-array input makes
`processValueList` throw `InvalidValueList`; a non-absent input that is
not a JS `Object` — neither a record nor an array — makes `processItem`
throw `InvalidItem`.  Arrays, although not record-shaped, are accepted
by `processItem` and traversed as objects. -/
theorem absence_passthrough_and_shape_errors (p : Processor)
    (typeName : String) :
    processValueList p .undefined typeName = .ok .undefined ∧
    processValueList p .null typeName = .ok .null ∧
    processItem p .undefined typeName = .ok .undefined ∧
    processItem p .null typeName = .ok .null ∧
    (∀ v, valueExists v = true → instanceofArray v = false →
      processValueList p v typeName = .error .invalidValueList) ∧
    (∀ v, valueExists v = true → instanceofObject v = false →
      processItem p v typeName = .error .invalidItem) := by
  refine ⟨?_, ?_, ?_, ?_, ?_, ?_⟩
  · rw [processValueList_notList p .undefined typeName rfl]; simp [valueExists]
  · rw [processValueList_notList p .null typeName rfl]; simp [valueExists]
  · rw [processItem_notObj p .undefined typeName rfl]; simp [valueExists]
  · rw [processItem_notObj p .null typeName rfl]; simp [valueExists]
  · intro v hv ha
    rw [processValueList_notList p v typeName ha]
    simp [hv]
  · intro v hv ho
    rw [processItem_notObj p v typeName ho]
    simp [hv]

/-- C7 counterexample: the empty array is non-absent and not
record-shaped, yet `processItem` does not throw `InvalidItem`: the
`instanceof Object` guard accepts the array and it is traversed as a
record with all field reads `undefined`. -/
theorem processItem_array_not_invalidItem :
    valueExists (.list []) = true ∧
    instanceofArray (.list []) = true ∧
    processItem contactP (.list []) "Contact" =
      .ok (.obj [("firstName", .undefined)]) := by
  refine ⟨rfl, rfl, ?_⟩
  have hfl : getFieldList contactP "Contact" = .ok ["firstName"] := by
    simp [getFieldList, getTypeDefinition, tmLookup, contactP, tmContact,
      tdContact]
  have h0 : (processFields contactP [] "Contact" ["firstName"]).2 = [] := by
    simp [processFields, processFieldValue, getFieldDescriptor,
      getTypeDefinition, tmLookup, fdLookup, contactP, tmContact, tdContact,
      tdString, lookupField, processValue]
  have h1 : (processFields contactP [] "Contact" ["firstName"]).1 =
      [("firstName", .undefined)] := by
    simp [processFields, processFieldValue, getFieldDescriptor,
      getTypeDefinition, tmLookup, fdLookup, contactP, tmContact, tdContact,
      tdString, lookupField, processValue]
  rw [processItem]
  simp only [instanceofObject, propList, hfl]
  rcases hpf : processFields contactP [] "Contact" ["firstName"] with ⟨ni, errs⟩
  rw [hpf] at h0 h1
  simp only at h0 h1
  subst h0
  subst h1
  simp

theorem absence_passthrough_and_shape_errors_witness :
    valueExists (.num 5) = true ∧ instanceofArray (.num 5) = false ∧
    valueExists (.str "s") = true ∧ instanceofObject (.str "s") = false ∧
    processValueList contactP .undefined "Contact" = .ok .undefined ∧
    processItem contactP .null "Contact" = .ok .null ∧
    processValueList contactP (.num 5) "Contact" =
      .error .invalidValueList ∧
    processItem contactP (.str "s") "Contact" = .error .invalidItem := by
  have h := absence_passthrough_and_shape_errors contactP "Contact"
  exact ⟨rfl, rfl, rfl, rfl, h.1, h.2.2.2.1,
    h.2.2.2.2.1 (.num 5) rfl rfl, h.2.2.2.2.2 (.str "s") rfl rfl⟩

/-- C5 (amended): for a type name absent from the type map, every
introspection entry point and `processValue` fail with
`NonExistentType` for every input; `processItem` fails with
`NonExistentType` for every record-shaped input; `processValueList` on
a non-empty array fails with a `ValueListError` every entry of which is
`NonExistentType` (the per-element lookup failures are caught and
aggregated); absent inputs pass through and the empty array returns
empty without any lookup. -/
theorem nonExistentType_behavior (p : Processor) (typeName : String)
    (h : tmLookup p.typeMap typeName = none) :
    getTypeDefinition p typeName = .error .nonExistentType ∧
    getFieldList p typeName = .error .nonExistentType ∧
    (∀ f, getFieldDescriptor p typeName f = .error .nonExistentType) ∧
    (∀ f, getTypeFeature p typeName f = .error .nonExistentType) ∧
    (∀ f g, getFieldFeature p typeName f g = .error .nonExistentType) ∧
    (∀ v, processValue p v typeName = .error .nonExistentType) ∧
    (∀ ifs, processItem p (.obj ifs) typeName = .error .nonExistentType) ∧
    (∀ x xs, ∃ m, processValueList p (.list (x :: xs)) typeName =
      .error (.valueListError m) ∧ m ≠ [] ∧
      ∀ e ∈ m, e.2 = JSError.nonExistentType) := by
  have hd : getTypeDefinition p typeName = .error .nonExistentType := by
    simp [getTypeDefinition, h]
  have hpv : ∀ v, processValue p v typeName = .error .nonExistentType := by
    intro v
    rw [processValue, hd]
  refine ⟨hd, by simp [getFieldList, hd], fun f => ?_, fun f => ?_,
    fun f g => ?_, hpv, fun ifs => ?_, fun x xs => ?_⟩
  · simp [getFieldDescriptor, hd]
  · simp [getTypeFeature, hd]
  · simp [getFieldFeature, getFieldDescriptor, hd]
  · rw [processItem_obj]
    simp [getFieldList, hd]
  · refine ⟨(processElements p (x :: xs) typeName 0).2,
      processValueList_list_err p (x :: xs) typeName ?_, ?_, ?_⟩
    · rw [processElements_eq]
      simp [List.enumFrom, hpv x]
    · rw [processElements_eq]
      simp [List.enumFrom, hpv x]
    · rw [processElements_eq]
      intro e he
      simp only [List.mem_filterMap] at he
      obtain ⟨ix, hmem, hfx⟩ := he
      rw [hpv ix.2] at hfx
      simp only [Option.some.injEq] at hfx
      rw [← hfx]

/-- A processor with an empty type map. -/
def emptyP : Processor := { typeMap := [] }

/-- C5 counterexample: `processItem` is an entry point and `"T"` is
absent from the (empty) type map, yet on the absent input `undefined`
it returns the input unchanged instead of failing with
`NonExistentType`. -/
theorem processItem_missing_type_no_error :
    tmLookup emptyP.typeMap "T" = none ∧
    processItem emptyP .undefined "T" = .ok .undefined := by
  refine ⟨rfl, ?_⟩
  rw [processItem_notObj emptyP .undefined "T" rfl]
  simp [valueExists]

theorem nonExistentType_behavior_witness :
    tmLookup emptyP.typeMap "T" = none ∧
    getTypeDefinition emptyP "T" = .error .nonExistentType ∧
    processValue emptyP (.num 1) "T" = .error .nonExistentType ∧
    (∃ m, processValueList emptyP (.list [.num 1]) "T" =
      .error (.valueListError m) ∧ m ≠ [] ∧
      ∀ e ∈ m, e.2 = JSError.nonExistentType) := by
  obtain ⟨h1, h2, h3, h4, h5, h6, h7, h8⟩ :=
    nonExistentType_behavior emptyP "T" rfl
  exact ⟨rfl, h1, h6 (.num 1), h8 (.num 1) []⟩

/-- C8: for a composite type with declared fields, processing a
record-shaped input on which no declared field fails returns a record
whose key list is exactly the declared field list: every declared field
is present, and every undeclared input field is dropped. -/
theorem processItem_output_keys (p : Processor) (typeName : String)
    (td : TypeDefinition) (fs : List (String × FieldDescriptor))
    (ifs : List (String × JSValue))
    (h1 : tmLookup p.typeMap typeName = some td)
    (h2 : td.fields = some fs)
    (h3 : failingFields p typeName ifs (fs.map Prod.fst) = []) :
    ∃ out, processItem p (.obj ifs) typeName = .ok (.obj out) ∧
      out.map Prod.fst = fs.map Prod.fst := by
  have hfl : getFieldList p typeName = .ok (fs.map Prod.fst) := by
    simp [getFieldList, getTypeDefinition, h1, h2]
  have hsnd :=
    (processFields_snd_nil_iff p ifs typeName (fs.map Prod.fst)).mpr h3
  refine ⟨(processFields p ifs typeName (fs.map Prod.fst)).1,
    processItem_obj_ok p ifs typeName (fs.map Prod.fst) hfl hsnd, ?_⟩
  rw [processFields_fst_of_ok p ifs typeName (fs.map Prod.fst)
    ((failingFields_nil_iff p typeName ifs (fs.map Prod.fst)).mp h3)]
  simp

theorem processItem_output_keys_witness :
    failingFields contactP "Contact"
      [("firstName", .str "Ann"), ("extra", .num 1)] ["firstName"] = [] ∧
    (∃ out, processItem contactP
        (.obj [("firstName", .str "Ann"), ("extra", .num 1)]) "Contact" =
      .ok (.obj out) ∧ out.map Prod.fst = ["firstName"]) := by
  have hfail : failingFields contactP "Contact"
      [("firstName", .str "Ann"), ("extra", .num 1)] ["firstName"] = [] := by
    simp [failingFields, processFieldValue, getFieldDescriptor,
      getTypeDefinition, tmLookup, fdLookup, contactP, tmContact, tdContact,
      tdString, lookupField, processValue, isErr]
  refine ⟨hfail, ?_⟩
  have h := processItem_output_keys contactP "Contact" tdContact
    [("firstName", { type := "String" })]
    [("firstName", .str "Ann"), ("extra", .num 1)]
    (by simp [contactP, tmContact, tmLookup]) rfl (by simpa using hfail)
  simpa using h

/-- A processor using the default identity hooks — the base engine used
"standalone for pure schema traversal/reshaping". -/
def idProcessor (tm : List (String × TypeDefinition)) : Processor :=
  { typeMap := tm }

/-- Whether a key list has no duplicates (JS object keys always do). -/
def keysNodup : List String → Bool
  | [] => true
  | k :: rest => !(rest.contains k) && keysNodup rest

/-- A well-formed type map: every declared fields map has duplicate-free
keys, as every JS object does. -/
def wfTypeMap (tm : List (String × TypeDefinition)) : Bool :=
  tm.all fun e =>
    match e.2.fields with
    | some fs => keysNodup (fs.map Prod.fst)
    | none => true

theorem tmLookup_mem (tm : List (String × TypeDefinition)) (t : String)
    (td : TypeDefinition) (h : tmLookup tm t = some td) : (t, td) ∈ tm := by
  induction tm with
  | nil => simp [tmLookup] at h
  | cons e rest ih =>
    obtain ⟨k, d⟩ := e
    rw [tmLookup] at h
    by_cases hk : k = t
    · rw [if_pos hk] at h
      cases h
      simp [hk]
    · rw [if_neg hk] at h
      simp [ih h]

theorem wf_fields_nodup (tm : List (String × TypeDefinition))
    (hwf : wfTypeMap tm = true) (t : String) (td : TypeDefinition)
    (fs : List (String × FieldDescriptor))
    (htm : tmLookup tm t = some td) (hf : td.fields = some fs) :
    keysNodup (fs.map Prod.fst) = true := by
  have hmem := tmLookup_mem tm t td htm
  rw [wfTypeMap, List.all_eq_true] at hwf
  have := hwf (t, td) hmem
  rw [hf] at this
  exact this

theorem fdLookup_of_mem (fs : List (String × FieldDescriptor))
    (hnd : keysNodup (fs.map Prod.fst) = true) :
    ∀ fd ∈ fs, fdLookup fs fd.1 = some fd.2 := by
  induction fs with
  | nil => simp
  | cons e rest ih =>
    obtain ⟨k, d⟩ := e
    rw [List.map_cons, keysNodup, Bool.and_eq_true] at hnd
    obtain ⟨hnotin, hrest⟩ := hnd
    intro fd hm
    rcases List.mem_cons.mp hm with heq | hmr
    · subst heq
      simp [fdLookup]
    · rw [fdLookup]
      by_cases hk : k = fd.1
      · exfalso
        have hmemk : fd.1 ∈ rest.map Prod.fst :=
          List.mem_map_of_mem Prod.fst hmr
        rw [← hk] at hmemk
        have hcont : (rest.map Prod.fst).contains k = true :=
          List.elem_eq_true_of_mem hmemk
        rw [hcont] at hnotin
        simp at hnotin
      · rw [if_neg hk]
        exact ih hrest fd hmr

mutual

/-- Spec-side restriction of a value to its schema ("processing with the
identity default hooks returns a deep-equal copy of the input restricted
to declared fields"): a primitive or remote leaf is returned unchanged;
a composite value must be a record and is rebuilt from its declared
fields only.  `none` means the input does not conform (or the depth
budget `n` ran out); `specRestrictValue` is a definition of the spec's
words, to be compared with the engine. -/
def specRestrictValue : Nat → List (String × TypeDefinition) → JSValue →
    String → Option JSValue
  | 0, _, _, _ => none
  | n + 1, tm, v, t =>
    match tmLookup tm t with
    | none => none
    | some td =>
      if td.primitive then some v
      else if td.remote then some v
      else
        match td.fields, v with
        | some fs, .obj ifs => (specRestrictFields n tm ifs fs).map JSValue.obj
        | _, _ => none

/-- Spec-side restriction of a record's declared fields, in declaration
order: each declared field is read from the input record and restricted
at its declared type (as a list when `multiple` is set). -/
def specRestrictFields : Nat → List (String × TypeDefinition) →
    List (String × JSValue) → List (String × FieldDescriptor) →
    Option (List (String × JSValue))
  | 0, _, _, _ => none
  | _ + 1, _, _, [] => some []
  | n + 1, tm, ifs, (f, d) :: rest =>
    match
      (if d.multiple then specRestrictList n tm (lookupField ifs f) d.type
       else specRestrictValue n tm (lookupField ifs f) d.type) with
    | none => none
    | some w =>
      match specRestrictFields n tm ifs rest with
      | none => none
      | some ws => some ((f, w) :: ws)

/-- Spec-side restriction of a homogeneous list: the input must be a
list and every element is restricted at the element type. -/
def specRestrictList : Nat → List (String × TypeDefinition) → JSValue →
    String → Option JSValue
  | 0, _, _, _ => none
  | n + 1, tm, .list xs, t => (specRestrictElems n tm xs t).map JSValue.list
  | _ + 1, _, _, _ => none

/-- Spec-side restriction of the elements of a list, in order. -/
def specRestrictElems : Nat → List (String × TypeDefinition) →
    List JSValue → String → Option (List JSValue)
  | 0, _, _, _ => none
  | _ + 1, _, [], _ => some []
  | n + 1, tm, x :: rest, t =>
    match specRestrictValue n tm x t with
    | none => none
    | some w => (specRestrictElems n tm rest t).map (w :: ·)

end

/-- Spec-side restriction of a record-shaped item to the declared
fields of its (composite) type: the input restricted to declared
fields, per the spec's words for `processItem`. -/
def specRestrictItem : Nat → List (String × TypeDefinition) → JSValue →
    String → Option JSValue
  | 0, _, _, _ => none
  | n + 1, tm, .obj ifs, t =>
    match tmLookup tm t with
    | none => none
    | some td =>
      match td.fields with
      | none => none
      | some fs => (specRestrictFields n tm ifs fs).map JSValue.obj
  | _ + 1, _, _, _ => none

theorem specRestrict_sound (tm : List (String × TypeDefinition))
    (hwf : wfTypeMap tm = true) : ∀ n : Nat,
    (∀ v t out, specRestrictValue n tm v t = some out →
      processValue (idProcessor tm) v t = .ok out) ∧
    (∀ ifs sub t out,
      (∀ fd ∈ sub, getFieldDescriptor (idProcessor tm) t fd.1 = .ok fd.2) →
      specRestrictFields n tm ifs sub = some out →
      processFields (idProcessor tm) ifs t (sub.map Prod.fst) = (out, [])) ∧
    (∀ v t out, specRestrictList n tm v t = some out →
      processValueList (idProcessor tm) v t = .ok out) ∧
    (∀ xs t out i, specRestrictElems n tm xs t = some out →
      processElements (idProcessor tm) xs t i = (out, [])) := by
  intro n
  induction n with
  | zero =>
    refine ⟨fun v t out h => ?_, fun ifs sub t out hd h => ?_,
      fun v t out h => ?_, fun xs t out i h => ?_⟩ <;>
      simp [specRestrictValue, specRestrictFields, specRestrictList,
        specRestrictElems] at h
  | succ n ih =>
    obtain ⟨ihA, ihB, ihC, ihD⟩ := ih
    refine ⟨fun v t out h => ?_, fun ifs sub t out hdesc h => ?_,
      fun v t out h => ?_, fun xs t out i h => ?_⟩
    · -- values
      cases htm : tmLookup tm t with
      | none => simp [specRestrictValue, htm] at h
      | some td =>
        simp only [specRestrictValue, htm] at h
        have hd : getTypeDefinition (idProcessor tm) t = .ok td := by
          simp [getTypeDefinition, idProcessor, htm]
        by_cases hp : td.primitive = true
        · rw [if_pos hp] at h
          injection h with h
          subst h
          rw [processValue, hd]
          simp [hp, idProcessor]
        · rw [if_neg hp] at h
          by_cases hr : td.remote = true
          · rw [if_pos hr] at h
            injection h with h
            subst h
            rw [processValue, hd]
            simp [hp, hr, idProcessor]
          · rw [if_neg hr] at h
            cases hf : td.fields with
            | none => cases v <;> simp [hf] at h
            | some fs =>
              cases v with
              | undefined => simp [hf] at h
              | null => simp [hf] at h
              | bool b => simp [hf] at h
              | num m => simp [hf] at h
              | str s => simp [hf] at h
              | list l => simp [hf] at h
              | obj ifs =>
                simp only [hf] at h
                rw [Option.map_eq_some'] at h
                obtain ⟨outf, hsf, hout⟩ := h
                subst hout
                have hnd := wf_fields_nodup tm hwf t td fs htm hf
                have hassoc := fdLookup_of_mem fs hnd
                have hdesc : ∀ fd ∈ fs,
                    getFieldDescriptor (idProcessor tm) t fd.1 = .ok fd.2 := by
                  intro fd hm
                  simp [getFieldDescriptor, getTypeDefinition, idProcessor,
                    htm, hf, hassoc fd hm]
                have hBf := ihB ifs fs t outf hdesc hsf
                have hfl : getFieldList (idProcessor tm) t =
                    .ok (fs.map Prod.fst) := by
                  simp [getFieldList, getTypeDefinition, idProcessor, htm, hf]
                have h2f : (processFields (idProcessor tm) ifs t
                    (fs.map Prod.fst)).2 = [] := by rw [hBf]
                have h1f : (processFields (idProcessor tm) ifs t
                    (fs.map Prod.fst)).1 = outf := by rw [hBf]
                rw [processValue]
                simp only [hd]
                rw [if_neg hp, if_neg hr]
                rw [processItem_obj_ok (idProcessor tm) ifs t
                  (fs.map Prod.fst) hfl h2f, h1f]
    · -- field lists
      cases sub with
      | nil =>
        rw [specRestrictFields] at h
        injection h with h
        subst h
        simp only [List.map_nil]
        rw [processFields]
      | cons fd rest =>
        obtain ⟨f, d⟩ := fd
        rw [specRestrictFields] at h
        cases hw : (if d.multiple = true
            then specRestrictList n tm (lookupField ifs f) d.type
            else specRestrictValue n tm (lookupField ifs f) d.type) with
        | none => rw [hw] at h; simp at h
        | some w =>
          simp only [hw] at h
          cases hrest : specRestrictFields n tm ifs rest with
          | none => rw [hrest] at h; simp at h
          | some ws =>
            simp only [hrest] at h
            injection h with h
            subst h
            have hfd := hdesc (f, d) (by simp)
            have hfv : processFieldValue (idProcessor tm) (lookupField ifs f)
                t f = .ok w := by
              by_cases hm : d.multiple = true
              · rw [if_pos hm] at hw
                rw [processFieldValue]
                simp only [hfd, hm, if_true]
                exact ihC (lookupField ifs f) d.type w hw
              · rw [if_neg hm] at hw
                rw [processFieldValue]
                simp only [hfd, hm, if_false]
                exact ihA (lookupField ifs f) d.type w hw
            have hrest2 := ihB ifs rest t ws
              (fun fd hm => hdesc fd (by simp [hm])) hrest
            rw [List.map_cons, processFields]
            simp [hfv, hrest2]
    · -- lists
      cases v with
      | undefined => simp [specRestrictList] at h
      | null => simp [specRestrictList] at h
      | bool b => simp [specRestrictList] at h
      | num m => simp [specRestrictList] at h
      | str s => simp [specRestrictList] at h
      | obj ifs => simp [specRestrictList] at h
      | list xs =>
        rw [specRestrictList] at h
        rw [Option.map_eq_some'] at h
        obtain ⟨os, hos, hout⟩ := h
        subst hout
        have hD := ihD xs t os 0 hos
        have h2e : (processElements (idProcessor tm) xs t 0).2 = [] := by
          rw [hD]
        have h1e : (processElements (idProcessor tm) xs t 0).1 = os := by
          rw [hD]
        rw [processValueList_list_ok (idProcessor tm) xs t h2e, h1e]
    · -- list elements
      cases xs with
      | nil =>
        rw [specRestrictElems] at h
        injection h with h
        subst h
        rw [processElements]
      | cons x rest =>
        rw [specRestrictElems] at h
        cases hx : specRestrictValue n tm x t with
        | none => rw [hx] at h; simp at h
        | some w =>
          simp only [hx] at h
          cases hrest : specRestrictElems n tm rest t with
          | none => rw [hrest] at h; simp at h
          | some ws =>
            simp only [hrest, Option.map_some'] at h
            injection h with h
            subst h
            have hv := ihA x t w hx
            have hrest2 := ihD rest t ws (i + 1) hrest
            rw [processElements]
            simp [hv, hrest2]

/-- C3: with the default identity hooks, processing a schema-conforming
record returns a record deep-equal to the input restricted (recursively)
to the declared fields of its type — `specRestrictItem` being the
spec-side restriction operator, any restriction it defines is exactly
what `processItem` returns; in particular
`processItem({firstName:'Ann'}, 'Contact')` under the scenario type map
returns `{firstName:'Ann'}` (see the witness). -/
theorem processItem_identity_restriction (tm : List (String × TypeDefinition))
    (hwf : wfTypeMap tm = true) (n : Nat) (v : JSValue) (t : String)
    (out : JSValue) (h : specRestrictItem n tm v t = some out) :
    processItem (idProcessor tm) v t = .ok out := by
  cases n with
  | zero => simp [specRestrictItem] at h
  | succ n =>
    cases v with
    | undefined => simp [specRestrictItem] at h
    | null => simp [specRestrictItem] at h
    | bool b => simp [specRestrictItem] at h
    | num m => simp [specRestrictItem] at h
    | str s => simp [specRestrictItem] at h
    | list l => simp [specRestrictItem] at h
    | obj ifs =>
      cases htm : tmLookup tm t with
      | none => simp [specRestrictItem, htm] at h
      | some td =>
        simp only [specRestrictItem, htm] at h
        cases hf : td.fields with
        | none => simp [hf] at h
        | some fs =>
          simp only [hf] at h
          rw [Option.map_eq_some'] at h
          obtain ⟨outf, hsf, hout⟩ := h
          subst hout
          have hnd := wf_fields_nodup tm hwf t td fs htm hf
          have hassoc := fdLookup_of_mem fs hnd
          have hdesc : ∀ fd ∈ fs,
              getFieldDescriptor (idProcessor tm) t fd.1 = .ok fd.2 := by
            intro fd hm
            simp [getFieldDescriptor, getTypeDefinition, idProcessor, htm,
              hf, hassoc fd hm]
          have hBf := (specRestrict_sound tm hwf n).2.1 ifs fs t outf hdesc hsf
          have hfl : getFieldList (idProcessor tm) t =
              .ok (fs.map Prod.fst) := by
            simp [getFieldList, getTypeDefinition, idProcessor, htm, hf]
          have h2f : (processFields (idProcessor tm) ifs t
              (fs.map Prod.fst)).2 = [] := by rw [hBf]
          have h1f : (processFields (idProcessor tm) ifs t
              (fs.map Prod.fst)).1 = outf := by rw [hBf]
          rw [processItem_obj_ok (idProcessor tm) ifs t (fs.map Prod.fst)
            hfl h2f, h1f]

theorem processItem_identity_restriction_witness :
    wfTypeMap tmContact = true ∧
    specRestrictItem 3 tmContact (.obj [("firstName", .str "Ann")])
      "Contact" = some (.obj [("firstName", .str "Ann")]) ∧
    processItem (idProcessor tmContact) (.obj [("firstName", .str "Ann")])
      "Contact" = .ok (.obj [("firstName", .str "Ann")]) := by
  have hwf : wfTypeMap tmContact = true := by
    simp [wfTypeMap, tmContact, tdString, tdContact, keysNodup]
  have hsr : specRestrictItem 3 tmContact (.obj [("firstName", .str "Ann")])
      "Contact" = some (.obj [("firstName", .str "Ann")]) := by
    simp [specRestrictItem, specRestrictFields, specRestrictValue, tmLookup,
      tmContact, tdContact, tdString, lookupField]
  exact ⟨hwf, hsr,
    processItem_identity_restriction tmContact hwf 3 _ "Contact" _ hsr⟩
